import Mathlib

/-!
Verification of the perlin indexing and query-evaluation core.

The definitions below are shallow embeddings of the Rust sources under
`src/`.  Machine integers (`u64`, `u32`, `usize`) are modelled as `Nat`;
the `i64` arithmetic of `positional_intersect` is modelled as `Int`.
Where a component of the repository is not present under `src/` (the
variable-byte codec, the vocabulary module, the listing storage of the
page-cache index), the corresponding definition is modelled from the
specification and says so in its doc comment.
-/

namespace Perlin

/-- A `(term_id, doc_id, position)` triple as pushed by the producer in
`index_documents` (src/src/index/boolean_index/indexing.rs). -/
abbrev Triple := Nat × Nat × Nat

/-- A posting as consumed by the query iterators and by `write_listing`:
a document id together with its position list. -/
abbrev Posting := Nat × List Nat

/-- A listing: the ordered posting sequence of one term. -/
abbrev Listing := List Posting

/-- Modelled from the spec: `storage/compression.rs` (`VByteEncoded`) is not
under `src/`.  Spec §4.1/§6: little-endian 7-bit groups, the high bit is set
only on the terminating byte; `0 → [0x80]`, `127 → [0xFF]`, `128 → [0x00, 0x81]`. -/
def vbyte (n : Nat) : List Nat :=
  if n < 128 then [n + 128]
  else n % 128 :: vbyte (n / 128)
termination_by n
decreasing_by exact Nat.div_lt_self (by omega) (by omega)

/-- Modelled from the spec: `storage/compression.rs` (`VByteDecoder`) is not
under `src/`.  Accumulates little-endian 7-bit groups until a byte with the
high bit set terminates the number; a source exhausted mid-number yields
nothing further. -/
def vbyteDecodeAux : List Nat → Nat → Nat → List Nat
  | [], _, _ => []
  | b :: rest, acc, shift =>
    if 128 ≤ b then (acc + (b - 128) * 128 ^ shift) :: vbyteDecodeAux rest 0 0
    else vbyteDecodeAux rest (acc + b * 128 ^ shift) (shift + 1)

/-- Decode a whole byte stream of concatenated vbyte numbers. -/
def vbyteDecode (bs : List Nat) : List Nat := vbyteDecodeAux bs 0 0

/-- The position-delta loop inside `write_listing`
(src/src/index/boolean_index/indexing.rs, lines 165-170): `last_position`
starts at 0 and is updated to each position after its delta is written. -/
def write_positions (positions : List Nat) (last_position : Nat) : List Nat :=
  match positions with
  | [] => []
  | p :: rest => vbyte (p - last_position) ++ write_positions rest p

/-- `write_listing` (src/src/index/boolean_index/indexing.rs, lines 159-173):
for each posting it writes `vbyte(doc_id - base_doc_id)`,
`vbyte(positions.len())` and the position deltas, updating `base_doc_id` to
the written doc id; it returns the written bytes together with the final
`base_doc_id`. -/
def write_listing (listing : Listing) (base_doc_id : Nat) : List Nat × Nat :=
  match listing with
  | [] => ([], base_doc_id)
  | (doc_id, positions) :: rest =>
    let bytes := vbyte (doc_id - base_doc_id) ++ vbyte positions.length ++
      write_positions positions 0
    let r := write_listing rest doc_id
    (bytes ++ r.1, r.2)

/-- The spec's description of the per-posting byte layout (§4.3): each
posting contributes the vbyte of its doc-id delta against the previous doc
id (the first against `base`), the vbyte of its position count, and the
vbytes of the successive position deltas, the first taken from 0.  Stated
independently of the state-passing recursion of `write_listing` by zipping
each entry with its predecessor. -/
def spec_listing_bytes (listing : Listing) (base : Nat) : List Nat :=
  ((base :: listing.map Prod.fst).zip listing).flatMap
    (fun pe =>
      vbyte (pe.2.1 - pe.1) ++ vbyte pe.2.2.length ++
        ((0 :: pe.2.2).zip pe.2.2).flatMap (fun qp => vbyte (qp.2 - qp.1)))

/-- The spec's description of `write_listing`'s return value: the doc id of
the last posting written, or the base doc id for an empty listing. -/
def spec_listing_last (listing : Listing) (base : Nat) : Nat :=
  (listing.map Prod.fst).getLastD base

end Perlin

namespace Perlin

/-- The position-delta bytes equal the zip-with-predecessor form. -/
theorem write_positions_eq_spec (ps : List Nat) (lp : Nat) :
    write_positions ps lp = ((lp :: ps).zip ps).flatMap (fun qp => vbyte (qp.2 - qp.1)) := by
  induction ps generalizing lp with
  | nil => simp [write_positions]
  | cons p rest ih => simp [write_positions, ih]

/-- The state-passing `write_listing` agrees with the spec's
zip-with-predecessor description of the emitted bytes and of the returned
doc id.  On the claim's domain (doc ids ascending from the base) the `Nat`
subtractions agree with the `u64` subtractions of the source. -/
theorem write_listing_eq_spec (listing : Listing) (base : Nat) :
    write_listing listing base =
      (spec_listing_bytes listing base, spec_listing_last listing base) := by
  induction listing generalizing base with
  | nil => simp [write_listing, spec_listing_bytes, spec_listing_last]
  | cons e rest ih =>
    obtain ⟨d, ps⟩ := e
    have hlast : spec_listing_last ((d, ps) :: rest) base = spec_listing_last rest d := by
      simp only [spec_listing_last, List.map_cons, List.getLastD_cons]
    simp only [write_listing, ih, hlast, spec_listing_bytes, List.map_cons,
      List.zip_cons_cons, List.flatMap_cons, write_positions_eq_spec, List.append_assoc]

/-- C2: `write_listing` emits, for each posting in order, the vbyte of the
doc-id delta (the first delta taken from the base), the vbyte of the
position count, and the vbytes of the successive position deltas (the first
taken from 0); it returns the doc id of the last posting written, or the
base doc id for an empty listing.  Writing `[(0,[0,1,2]),(1,[1,2,3])]` with
base 0 produces bytes that vbyte-decode to `[0,3,0,1,1,1,3,1,1,1]`. -/
theorem claim_C2_write_listing :
    (∀ (listing : Listing) (base : Nat),
        write_listing listing base =
          (spec_listing_bytes listing base, spec_listing_last listing base)) ∧
    vbyteDecode (write_listing [(0, [0, 1, 2]), (1, [1, 2, 3])] 0).1 =
      [0, 3, 0, 1, 1, 1, 3, 1, 1, 1] ∧
    (write_listing [(0, [0, 1, 2]), (1, [1, 2, 3])] 0).2 = 1 ∧
    (∀ base : Nat, write_listing [] base = ([], base)) := by
  refine ⟨write_listing_eq_spec, ?_, ?_, fun base => rfl⟩
  · simp [write_listing, write_positions, vbyte, vbyteDecode, vbyteDecodeAux]
  · simp [write_listing]

end Perlin

namespace Perlin

/-- The "check downwards" scan of `positional_intersect`
(nary_query_iterator.rs, lines 288-293): the adjacent rows of the current
column still within `bounds.1`. -/
def check_down (lhs' : List Nat) (y : Nat) (hi : Int) : List (Nat × Nat) :=
  (lhs'.takeWhile (fun (d : Nat) => (d : Int) - (y : Int) ≤ hi)).map (fun d => (d, y))

/-- The "check right" scan of `positional_intersect`: the adjacent columns
of the current row still at least `bounds.0` apart. -/
def check_right (x : Nat) (rhs' : List Nat) (lo : Int) : List (Nat × Nat) :=
  (rhs'.takeWhile (fun (r : Nat) => lo ≤ (x : Int) - (r : Int))).map (fun r => (x, r))

/-- `positional_intersect` (nary_query_iterator.rs, lines 253-314), embedded
on the suffixes of the two slices that start at `lhs_ptr` and `rhs_ptr`.
The inner "check downwards" and "check right" scans are the `takeWhile`
prefixes of the remaining suffixes; the two trailing `if`s of the loop body
advance one or both pointers.  Position values (`u32`) are `Nat`, the
difference and the `i64` bounds are `Int`. -/
def positional_intersect (lhs rhs : List Nat) (bounds : Int × Int) : List (Nat × Nat) :=
  match lhs, rhs with
  | x :: lhs', y :: rhs' =>
    let diff : Int := (x : Int) - (y : Int)
    if _h : bounds.1 ≤ diff ∧ diff ≤ bounds.2 then
      ((x, y) :: (check_down lhs' y bounds.2 ++ check_right x rhs' bounds.1)) ++
        positional_intersect lhs' rhs' bounds
    else
      positional_intersect (if diff ≤ bounds.1 then lhs' else x :: lhs')
        (if bounds.2 ≤ diff then rhs' else y :: rhs') bounds
  | _, _ => []
termination_by lhs.length + rhs.length
decreasing_by
  · simp; omega
  · split <;> split <;> simp <;> omega

/-- The number of iterations of the main loop of `positional_intersect`:
the same recursion, counting one per loop iteration. -/
def positional_intersect_steps (lhs rhs : List Nat) (bounds : Int × Int) : Nat :=
  match lhs, rhs with
  | x :: lhs', y :: rhs' =>
    let diff : Int := (x : Int) - (y : Int)
    if _h : bounds.1 ≤ diff ∧ diff ≤ bounds.2 then
      positional_intersect_steps lhs' rhs' bounds + 1
    else
      positional_intersect_steps (if diff ≤ bounds.1 then lhs' else x :: lhs')
        (if bounds.2 ≤ diff then rhs' else y :: rhs') bounds + 1
  | _, _ => 0
termination_by lhs.length + rhs.length
decreasing_by
  · simp; omega
  · split <;> split <;> simp <;> omega

theorem positional_intersect_steps_le_aux :
    ∀ (n : Nat) (lhs rhs : List Nat) (bounds : Int × Int), lhs.length + rhs.length ≤ n →
      positional_intersect_steps lhs rhs bounds ≤ lhs.length + rhs.length := by
  intro n
  induction n with
  | zero =>
    intro lhs rhs bounds hn
    match lhs, rhs with
    | [], _ => rw [positional_intersect_steps.eq_def]; dsimp only; omega
    | x :: lhs', [] => rw [positional_intersect_steps.eq_def]; dsimp only; omega
    | x :: lhs', y :: rhs' => simp at hn
  | succ n ih =>
    intro lhs rhs bounds hn
    match lhs, rhs with
    | [], _ => rw [positional_intersect_steps.eq_def]; dsimp only; omega
    | x :: lhs', [] => rw [positional_intersect_steps.eq_def]; dsimp only; omega
    | x :: lhs', y :: rhs' =>
      rw [positional_intersect_steps.eq_def]
      dsimp only
      simp only [List.length_cons] at hn ⊢
      by_cases hin : bounds.1 ≤ (x : Int) - (y : Int) ∧ (x : Int) - (y : Int) ≤ bounds.2
      · rw [dif_pos hin]
        have := ih lhs' rhs' bounds (by omega)
        omega
      · rw [dif_neg hin]
        by_cases hA : (x : Int) - (y : Int) ≤ bounds.1
        · by_cases hB : bounds.2 ≤ (x : Int) - (y : Int)
          · rw [if_pos hA, if_pos hB]
            have := ih lhs' rhs' bounds (by omega)
            omega
          · rw [if_pos hA, if_neg hB]
            have := ih lhs' (y :: rhs') bounds (by (try simp only [List.length_cons, List.length_nil]); omega)
            simp only [List.length_cons] at this
            omega
        · by_cases hB : bounds.2 ≤ (x : Int) - (y : Int)
          · rw [if_neg hA, if_pos hB]
            have := ih (x :: lhs') rhs' bounds (by (try simp only [List.length_cons, List.length_nil]); omega)
            simp only [List.length_cons] at this
            omega
          · exfalso
            rcases not_and_or.mp hin with h1 | h2 <;> omega

theorem positional_intersect_steps_le (lhs rhs : List Nat) (bounds : Int × Int) :
    positional_intersect_steps lhs rhs bounds ≤ lhs.length + rhs.length :=
  positional_intersect_steps_le_aux (lhs.length + rhs.length) lhs rhs bounds le_rfl

theorem check_down_mem {q : Nat × Nat} {lhs' : List Nat} {y : Nat} {hi : Int}
    (h : q ∈ check_down lhs' y hi) : q.1 ∈ lhs' ∧ q.2 = y := by
  simp only [check_down, List.mem_map] at h
  obtain ⟨d, hd, rfl⟩ := h
  exact ⟨(List.takeWhile_sublist _).subset hd, rfl⟩

theorem check_right_mem {q : Nat × Nat} {x : Nat} {rhs' : List Nat} {lo : Int}
    (h : q ∈ check_right x rhs' lo) : q.1 = x ∧ q.2 ∈ rhs' := by
  simp only [check_right, List.mem_map] at h
  obtain ⟨r, hr, rfl⟩ := h
  exact ⟨rfl, (List.takeWhile_sublist _).subset hr⟩

theorem check_down_nodup {lhs' : List Nat} {y : Nat} {hi : Int}
    (h : lhs'.Pairwise (· < ·)) : (check_down lhs' y hi).Nodup := by
  refine List.Nodup.map (fun a b hab => ?_) ?_
  · exact congrArg Prod.fst hab
  · exact ((List.takeWhile_sublist _).nodup (h.imp (fun hab => Nat.ne_of_lt hab)))

theorem check_right_nodup {x : Nat} {rhs' : List Nat} {lo : Int}
    (h : rhs'.Pairwise (· < ·)) : (check_right x rhs' lo).Nodup := by
  refine List.Nodup.map (fun a b hab => ?_) ?_
  · exact congrArg Prod.snd hab
  · exact ((List.takeWhile_sublist _).nodup (h.imp (fun hab => Nat.ne_of_lt hab)))

theorem positional_intersect_mem_aux :
    ∀ (n : Nat) (lhs rhs : List Nat) (bounds : Int × Int), lhs.length + rhs.length ≤ n →
      ∀ q ∈ positional_intersect lhs rhs bounds, q.1 ∈ lhs ∧ q.2 ∈ rhs := by
  intro n
  induction n with
  | zero =>
    intro lhs rhs bounds hn q hq
    match lhs, rhs with
    | [], _ => rw [positional_intersect.eq_def] at hq; dsimp only at hq; simp at hq
    | x :: lhs', [] => rw [positional_intersect.eq_def] at hq; dsimp only at hq; simp at hq
    | x :: lhs', y :: rhs' => simp at hn
  | succ n ih =>
    intro lhs rhs bounds hn q hq
    match lhs, rhs with
    | [], _ => rw [positional_intersect.eq_def] at hq; dsimp only at hq; simp at hq
    | x :: lhs', [] => rw [positional_intersect.eq_def] at hq; dsimp only at hq; simp at hq
    | x :: lhs', y :: rhs' =>
      rw [positional_intersect.eq_def] at hq
      dsimp only at hq
      simp only [List.length_cons] at hn
      by_cases hin : bounds.1 ≤ (x : Int) - (y : Int) ∧ (x : Int) - (y : Int) ≤ bounds.2
      · rw [dif_pos hin] at hq
        simp only [List.cons_append, List.mem_cons, List.mem_append] at hq
        rcases hq with hq | hq
        · subst hq; simp
        rcases hq with hq | hq
        rcases hq with hq | hq
        · obtain ⟨h1, h2⟩ := check_down_mem hq
          exact ⟨List.mem_cons_of_mem _ h1, h2 ▸ List.mem_cons_self _ _⟩
        · obtain ⟨h1, h2⟩ := check_right_mem hq
          exact ⟨h1 ▸ List.mem_cons_self _ _, List.mem_cons_of_mem _ h2⟩
        · obtain ⟨h1, h2⟩ := ih lhs' rhs' bounds (by omega) q hq
          exact ⟨List.mem_cons_of_mem _ h1, List.mem_cons_of_mem _ h2⟩
      · rw [dif_neg hin] at hq
        have := ih (if (x : Int) - (y : Int) ≤ bounds.1 then lhs' else x :: lhs')
          (if bounds.2 ≤ (x : Int) - (y : Int) then rhs' else y :: rhs') bounds ?_ q hq
        · constructor
          · rcases this with ⟨h1, _⟩
            split at h1
            · exact List.mem_cons_of_mem _ h1
            · exact h1
          · rcases this with ⟨_, h2⟩
            split at h2
            · exact List.mem_cons_of_mem _ h2
            · exact h2
        · rcases not_and_or.mp hin with h1 | h2
          · have h1' : (x : Int) - (y : Int) ≤ bounds.1 := by omega
            rw [if_pos h1']
            split <;> (try simp only [List.length_cons]) <;> omega
          · have h2' : bounds.2 ≤ (x : Int) - (y : Int) := by omega
            rw [if_pos h2']
            split <;> (try simp only [List.length_cons]) <;> omega

theorem positional_intersect_nodup_aux :
    ∀ (n : Nat) (lhs rhs : List Nat) (bounds : Int × Int), lhs.length + rhs.length ≤ n →
      lhs.Pairwise (· < ·) → rhs.Pairwise (· < ·) →
      (positional_intersect lhs rhs bounds).Nodup := by
  intro n
  induction n with
  | zero =>
    intro lhs rhs bounds hn hl hr
    match lhs, rhs with
    | [], _ => rw [positional_intersect.eq_def]; dsimp only; simp
    | x :: lhs', [] => rw [positional_intersect.eq_def]; dsimp only; simp
    | x :: lhs', y :: rhs' => simp at hn
  | succ n ih =>
    intro lhs rhs bounds hn hl hr
    match lhs, rhs with
    | [], _ => rw [positional_intersect.eq_def]; dsimp only; simp
    | x :: lhs', [] => rw [positional_intersect.eq_def]; dsimp only; simp
    | x :: lhs', y :: rhs' =>
      rw [positional_intersect.eq_def]
      dsimp only
      simp only [List.length_cons] at hn
      obtain ⟨hx, hl'⟩ := List.pairwise_cons.mp hl
      obtain ⟨hy, hr'⟩ := List.pairwise_cons.mp hr
      by_cases hin : bounds.1 ≤ (x : Int) - (y : Int) ∧ (x : Int) - (y : Int) ≤ bounds.2
      · rw [dif_pos hin]
        have memREC : ∀ q ∈ positional_intersect lhs' rhs' bounds, q.1 ∈ lhs' ∧ q.2 ∈ rhs' :=
          positional_intersect_mem_aux n lhs' rhs' bounds (by omega)
        have hD := @check_down_nodup lhs' y bounds.2 hl'
        have hR := @check_right_nodup x rhs' bounds.1 hr'
        have hREC := ih lhs' rhs' bounds (by omega) hl' hr'
        rw [List.cons_append, List.nodup_cons]
        constructor
        · intro hmem
          rcases List.mem_append.mp hmem with hm | hm
          · rcases List.mem_append.mp hm with hm2 | hm2
            · exact Nat.lt_irrefl x (hx x (check_down_mem hm2).1)
            · exact Nat.lt_irrefl y (hy y (check_right_mem hm2).2)
          · exact Nat.lt_irrefl x (hx x (memREC _ hm).1)
        · rw [List.nodup_append, List.nodup_append]
          refine ⟨⟨hD, hR, ?_⟩, hREC, ?_⟩
          · intro q hqD hqR
            have h1 := (check_down_mem hqD).2
            have h2 := (check_right_mem hqR).2
            have h3 := hy _ h2
            omega
          · intro q hq hq2
            rcases List.mem_append.mp hq with hm | hm
            · have h1 := (check_down_mem hm).2
              have h2 := (memREC _ hq2).2
              have h3 := hy _ h2
              omega
            · have h1 := (check_right_mem hm).1
              have h2 := (memREC _ hq2).1
              have h3 := hx _ h2
              omega
      · rw [dif_neg hin]
        have hlp : (if (x : Int) - (y : Int) ≤ bounds.1 then lhs' else x :: lhs').Pairwise
            (· < ·) := by
          split
          · exact hl'
          · exact hl
        have hrp : (if bounds.2 ≤ (x : Int) - (y : Int) then rhs' else y :: rhs').Pairwise
            (· < ·) := by
          split
          · exact hr'
          · exact hr
        refine ih _ _ bounds ?_ hlp hrp
        rcases not_and_or.mp hin with h1 | h2
        · have h1' : (x : Int) - (y : Int) ≤ bounds.1 := by omega
          rw [if_pos h1']
          split <;> (try simp only [List.length_cons]) <;> omega
        · have h2' : bounds.2 ≤ (x : Int) - (y : Int) := by omega
          rw [if_pos h2']
          split <;> (try simp only [List.length_cons]) <;> omega

/-- C10: the main loop of `positional_intersect` performs at most
`len(lhs) + len(rhs)` iterations for every pair of input slices and every
bounds pair, empty slices and inverted bounds included: on a match both
pointers advance, otherwise at least one pointer advances. -/
theorem claim_C10_positional_intersect_terminates :
    ∀ (lhs rhs : List Nat) (bounds : Int × Int),
      positional_intersect_steps lhs rhs bounds ≤ lhs.length + rhs.length :=
  fun lhs rhs bounds => positional_intersect_steps_le lhs rhs bounds

/-- C5 counterexample: on `L = [1,3,4,8]`, `R = [0,4,5,7]`, bounds `(-1,1)`
the walk also matches the very first cell `(1,0)` (difference `1` lies in
`[-1,1]`), so the result is not exactly the four claimed pairs. -/
theorem claim_C5_counterexample :
    positional_intersect [1, 3, 4, 8] [0, 4, 5, 7] (-1, 1) ≠
      [(3, 4), (4, 4), (4, 5), (8, 7)] := by
  have h : positional_intersect [1, 3, 4, 8] [0, 4, 5, 7] (-1, 1) =
      [(1, 0), (3, 4), (4, 4), (4, 5), (8, 7)] := by
    simp [positional_intersect, check_down, check_right]
  rw [h]
  decide

/-- C5 (amended): `positional_intersect [1,3,4,8] [0,4,5,7] (-1,1)` returns
exactly the pairs `(1,0),(3,4),(4,4),(4,5),(8,7)` in the order produced by
the two-pointer walk, and for all strictly ascending inputs the result
never contains the same pair twice. -/
theorem claim_C5_positional_intersect :
    positional_intersect [1, 3, 4, 8] [0, 4, 5, 7] (-1, 1) =
      [(1, 0), (3, 4), (4, 4), (4, 5), (8, 7)] ∧
    ∀ (lhs rhs : List Nat) (bounds : Int × Int),
      lhs.Pairwise (· < ·) → rhs.Pairwise (· < ·) →
      (positional_intersect lhs rhs bounds).Nodup := by
  constructor
  · simp [positional_intersect, check_down, check_right]
  · intro lhs rhs bounds hl hr
    exact positional_intersect_nodup_aux (lhs.length + rhs.length) lhs rhs bounds le_rfl hl hr

/-- C5 witness: the amended theorem applied to the concrete strictly
ascending inputs of the example. -/
theorem claim_C5_witness :
    (positional_intersect [1, 3, 4, 8] [0, 4, 5, 7] (-1, 1)).Nodup :=
  claim_C5_positional_intersect.2 [1, 3, 4, 8] [0, 4, 5, 7] (-1, 1) (by decide) (by decide)

end Perlin

namespace Perlin

/-- The key order of `chunk.sort_by_key(|&(a, _, _)| a)`: compare triples by
term id. -/
def termLe (a b : Triple) : Prop := a.1 ≤ b.1

instance : DecidableRel termLe := fun a b => Nat.decLe a.1 b.1

instance : IsTotal Triple termLe := ⟨fun a b => Nat.le_total a.1 b.1⟩

instance : IsTrans Triple termLe := ⟨fun _ _ _ hab hbc => Nat.le_trans hab hbc⟩

/-- Rust's `sort_by_key` is a stable sort; the stable sort by term id is
modelled as insertion sort under the non-strict key order (equal keys keep
their original relative order, proved below as a filter identity). -/
def sort_by_term (chunk : List Triple) : List Triple := List.insertionSort termLe chunk

/-- Reverse the position accumulator of every posting and the posting
accumulator itself, restoring insertion order. -/
def finalizePostings (ps : List (Nat × List Nat)) : List (Nat × List Nat) :=
  (ps.map (fun dp => (dp.1, dp.2.reverse))).reverse

/-- Restore insertion order of the whole group accumulator. -/
def finalizeGroups (acc : List (Nat × List (Nat × List Nat))) :
    List (Nat × List (Nat × List Nat)) :=
  (acc.map (fun g => (g.1, finalizePostings g.2))).reverse

/-- The grouping loop of `sort_and_group_chunk`
(src/src/index/boolean_index/indexing.rs, lines 96-121).  The Rust loop
pushes groups at the end of `grouped_chunk` and mutates
`grouped_chunk[term_counter - 1]`; here the accumulators are kept reversed
(the head is the group/posting being extended) and restored on exit.
`i == 0` is expressed as `acc = []`: the accumulator is empty exactly
before the first iteration. -/
def group_loop (last_tid : Nat) (acc : List (Nat × List (Nat × List Nat))) :
    List Triple → List (Nat × List (Nat × List Nat))
  | [] => finalizeGroups acc
  | (t, d, p) :: rest =>
    if last_tid < t ∨ acc = [] then
      group_loop t ((t, [(d, [p])]) :: acc) rest
    else
      match acc with
      | (gt, (pd, ppos) :: ps) :: accRest =>
        if pd = d then group_loop last_tid ((gt, (pd, p :: ppos) :: ps) :: accRest) rest
        else group_loop last_tid ((gt, (d, [p]) :: (pd, ppos) :: ps) :: accRest) rest
      | _ => finalizeGroups acc

/-- `sort_and_group_chunk` (src/src/index/boolean_index/indexing.rs,
lines 89-121), sorting put aside from the channel plumbing: sort the
triples by term id (stable), then group by term id and doc id. -/
def sort_and_group_chunk (chunk : List Triple) : List (Nat × List (Nat × List Nat)) :=
  group_loop 0 [] (sort_by_term chunk)

/-- The spec's doc-level grouping: consecutive pairs with equal doc id are
merged into one posting's position list. -/
def docGroups : List (Nat × Nat) → List (Nat × List Nat)
  | [] => []
  | (d, p) :: rest =>
    (d, p :: (rest.takeWhile (fun q => q.1 = d)).map Prod.snd) ::
      docGroups (rest.dropWhile (fun q => q.1 = d))
termination_by pairs => pairs.length
decreasing_by simp only [List.length_cons]; exact Nat.lt_succ_of_le (List.dropWhile_sublist _).length_le

/-- The spec's term-level grouping: consecutive triples with equal term id
form one listing, whose postings are the doc-level groups. -/
def termGroups : List Triple → List (Nat × List (Nat × List Nat))
  | [] => []
  | (t, d, p) :: rest =>
    (t, docGroups ((d, p) :: (rest.takeWhile (fun q => q.1 = t)).map Prod.snd)) ::
      termGroups (rest.dropWhile (fun q => q.1 = t))
termination_by l => l.length
decreasing_by simp only [List.length_cons]; exact Nat.lt_succ_of_le (List.dropWhile_sublist _).length_le

/-- The doc-level grouping continued from a partially accumulated posting
`(pd, ppos)` (positions reversed). -/
def docCont (pd : Nat) (ppos : List Nat) (pairs : List (Nat × Nat)) : List (Nat × List Nat) :=
  (pd, ppos.reverse ++ (pairs.takeWhile (fun q => q.1 = pd)).map Prod.snd) ::
    docGroups (pairs.dropWhile (fun q => q.1 = pd))

theorem finalizePostings_cons (pd : Nat) (ppos : List Nat) (ps : List (Nat × List Nat)) :
    finalizePostings ((pd, ppos) :: ps) = finalizePostings ps ++ [(pd, ppos.reverse)] := by
  simp [finalizePostings]

theorem finalizeGroups_cons (g : Nat × List (Nat × List Nat))
    (acc : List (Nat × List (Nat × List Nat))) :
    finalizeGroups (g :: acc) = finalizeGroups acc ++ [(g.1, finalizePostings g.2)] := by
  simp [finalizeGroups]

theorem docGroups_cons_eq_docCont (d p : Nat) (pairs : List (Nat × Nat)) :
    docGroups ((d, p) :: pairs) = docCont d [p] pairs := by
  rw [docGroups, docCont]
  simp

theorem docGroups_nil : docGroups [] = [] := by
  rw [docGroups.eq_def]

theorem termGroups_nil : termGroups [] = [] := by
  rw [termGroups.eq_def]

theorem termGroups_cons (t d p : Nat) (rest : List Triple) :
    termGroups ((t, d, p) :: rest) =
      (t, docGroups ((d, p) :: (rest.takeWhile (fun q => q.1 = t)).map Prod.snd)) ::
        termGroups (rest.dropWhile (fun q => q.1 = t)) := by
  rw [termGroups.eq_def]

theorem group_loop_eq_spec (rest : List Triple) :
    ∀ (gt pd : Nat) (ppos : List Nat) (ps : List (Nat × List Nat))
      (accRest : List (Nat × List (Nat × List Nat))),
      (∀ x ∈ rest, gt ≤ x.1) → rest.Pairwise termLe →
      group_loop gt ((gt, (pd, ppos) :: ps) :: accRest) rest =
        finalizeGroups accRest ++
          (gt, finalizePostings ps ++
              docCont pd ppos ((rest.takeWhile (fun q => q.1 = gt)).map Prod.snd)) ::
            termGroups (rest.dropWhile (fun q => q.1 = gt)) := by
  induction rest with
  | nil =>
    intro gt pd ppos ps accRest _ _
    rw [group_loop, finalizeGroups_cons, finalizePostings_cons]
    simp [docCont, termGroups_nil, docGroups_nil]
  | cons head tail ih =>
    intro gt pd ppos ps accRest hterm hpw
    obtain ⟨t, d, p⟩ := head
    have ht : gt ≤ t := hterm (t, d, p) (List.mem_cons_self _ _)
    obtain ⟨hhead, hpw'⟩ := List.pairwise_cons.mp hpw
    have hterm' : ∀ x ∈ tail, gt ≤ x.1 := fun x hx => hterm x (List.mem_cons_of_mem _ hx)
    by_cases hgt : gt < t
    · rw [group_loop, if_pos (Or.inl hgt)]
      have htermT : ∀ x ∈ tail, t ≤ x.1 := fun x hx => hhead x hx
      rw [ih t d [p] [] ((gt, (pd, ppos) :: ps) :: accRest) htermT hpw']
      rw [finalizeGroups_cons, finalizePostings_cons]
      have hne : ¬ (t = gt) := by omega
      have h1 : List.takeWhile (fun q : Triple => q.1 = gt) ((t, d, p) :: tail) = [] := by
        simp [List.takeWhile_cons, hne]
      have h2 : List.dropWhile (fun q : Triple => q.1 = gt) ((t, d, p) :: tail) =
          (t, d, p) :: tail := by
        simp [List.dropWhile_cons, hne]
      rw [h1, h2, termGroups_cons]
      simp [docCont, docGroups_cons_eq_docCont, finalizePostings, docGroups_nil]
    · have heq : t = gt := by omega
      subst heq
      rw [group_loop, if_neg (by simp [hgt])]
      by_cases hpd : pd = d
      · subst hpd
        rw [if_pos rfl, ih t pd (p :: ppos) ps accRest hterm' hpw']
        simp [docCont, List.takeWhile_cons, List.dropWhile_cons]
      · rw [if_neg hpd, ih t d [p] ((pd, ppos) :: ps) accRest hterm' hpw']
        rw [finalizePostings_cons]
        have hne2 : ¬ (d = pd) := fun h => hpd h.symm
        simp [docCont, List.takeWhile_cons, List.dropWhile_cons, hne2,
          docGroups_cons_eq_docCont]

theorem sort_by_term_pairwise (chunk : List Triple) :
    (sort_by_term chunk).Pairwise termLe :=
  List.sorted_insertionSort termLe chunk

theorem group_loop_eq_termGroups (s : List Triple) (hpw : s.Pairwise termLe) :
    group_loop 0 [] s = termGroups s := by
  cases s with
  | nil =>
    rw [group_loop.eq_def, termGroups_nil]
    simp [finalizeGroups]
  | cons head tail =>
    obtain ⟨t, d, p⟩ := head
    rw [group_loop.eq_def]
    dsimp only
    rw [if_pos (Or.inr rfl)]
    obtain ⟨hhead, hpw'⟩ := List.pairwise_cons.mp hpw
    rw [group_loop_eq_spec tail t d [p] [] [] (fun x hx => hhead x hx) hpw']
    rw [termGroups_cons]
    simp [finalizeGroups, finalizePostings, docGroups_cons_eq_docCont]

theorem filter_orderedInsert (t : Nat) (a : Triple) (L : List Triple) :
    (List.orderedInsert termLe a L).filter (fun x => x.1 = t) =
      if a.1 = t then a :: L.filter (fun x => x.1 = t)
      else L.filter (fun x => x.1 = t) := by
  induction L with
  | nil =>
    by_cases h : a.1 = t <;> simp [List.orderedInsert, h]
  | cons y ys ih =>
    rw [List.orderedInsert]
    by_cases hle : termLe a y
    · rw [if_pos hle]
      by_cases h : a.1 = t <;> simp [h]
    · rw [if_neg hle]
      have hy : y.1 < a.1 := Nat.lt_of_not_le hle
      by_cases h : a.1 = t
      · have hyne : ¬ (y.1 = t) := by omega
        simp [h, hyne, ih]
      · by_cases hyt : y.1 = t <;> simp [h, hyt, ih]

theorem filter_sort_by_term (chunk : List Triple) (t : Nat) :
    (sort_by_term chunk).filter (fun x => x.1 = t) = chunk.filter (fun x => x.1 = t) := by
  unfold sort_by_term
  induction chunk with
  | nil => rfl
  | cons a l ih =>
    rw [List.insertionSort, filter_orderedInsert]
    by_cases h : a.1 = t <;> simp [h, ih]

/-- C6: `sort_and_group_chunk` sorts the buffer by term id ascending,
stably with respect to the original order for equal term ids, then groups
consecutive equal term ids into listings and merges consecutive equal doc
ids within a term into one posting's position list; on
`[(0,0,1),(0,0,2),(1,0,3),(0,1,0)]` it yields
`[(0,[(0,[1,2]),(1,[0])]),(1,[(0,[3])])]`. -/
theorem claim_C6_sort_and_group_chunk :
    (∀ chunk : List Triple, sort_and_group_chunk chunk = termGroups (sort_by_term chunk)) ∧
    (∀ (chunk : List Triple) (t : Nat),
        (sort_by_term chunk).filter (fun x => x.1 = t) = chunk.filter (fun x => x.1 = t)) ∧
    sort_and_group_chunk [(0, 0, 1), (0, 0, 2), (1, 0, 3), (0, 1, 0)] =
      [(0, [(0, [1, 2]), (1, [0])]), (1, [(0, [3])])] := by
  refine ⟨?_, filter_sort_by_term, ?_⟩
  · intro chunk
    exact group_loop_eq_termGroups (sort_by_term chunk) (sort_by_term_pairwise chunk)
  · decide

end Perlin

namespace Perlin

/-- Association-list lookup, modelling lookups in the `HashMap` vocabulary
(`term_ids.get(&term)` in indexing.rs, `self.vocabulary.get(atom)` in
index/mod.rs). -/
def lookupTerm {α : Type} [DecidableEq α] : List (α × Nat) → α → Option Nat
  | [], _ => none
  | (k, v) :: rest, t => if k = t then some v else lookupTerm rest t

/-- One step of the producer's vocabulary maintenance
(src/src/index/boolean_index/indexing.rs, lines 53-60): a known term
reuses its id; an unknown term is inserted with id `term_count`, which is
then incremented. -/
def addTerm {α : Type} [DecidableEq α] (st : List (α × Nat) × Nat) (t : α) :
    List (α × Nat) × Nat :=
  match lookupTerm st.1 t with
  | some _ => st
  | none => (st.1 ++ [(t, st.2)], st.2 + 1)

/-- The vocabulary and term counter after the producer has walked a term
stream (the flattened sequence of all document terms in input order). -/
def buildVocab {α : Type} [DecidableEq α] (ts : List α) : List (α × Nat) × Nat :=
  ts.foldl addTerm ([], 0)

/-- The distinct terms of a stream in first-seen order. -/
def firstSeen {α : Type} [DecidableEq α] : List α → List α
  | [] => []
  | t :: ts => t :: firstSeen (ts.filter (fun x => ¬ x = t))
termination_by l => l.length
decreasing_by simp only [List.length_cons]; exact Nat.lt_succ_of_le (List.length_filter_le _ _)

/-- Pair a list of terms with consecutive ids starting at `k`. -/
def pairUp {α : Type} : List α → Nat → List (α × Nat)
  | [], _ => []
  | t :: ts, k => (t, k) :: pairUp ts (k + 1)

theorem lookupTerm_append_single_none {α : Type} [DecidableEq α]
    (vs : List (α × Nat)) (t : α) (n : Nat) (x : α) :
    lookupTerm (vs ++ [(t, n)]) x = none ↔ lookupTerm vs x = none ∧ ¬ x = t := by
  induction vs with
  | nil =>
    by_cases h : t = x
    · subst h; simp [lookupTerm]
    · simp only [List.nil_append, lookupTerm, if_neg h]
      simp only [true_iff, iff_true, true_and]
      exact fun hx => h hx.symm
  | cons kv rest ih =>
    obtain ⟨k, v⟩ := kv
    by_cases h : k = x <;> simp [lookupTerm, h, ih]

theorem buildVocab_aux {α : Type} [DecidableEq α] :
    ∀ (ts : List α) (vs : List (α × Nat)) (n : Nat),
      ts.foldl addTerm (vs, n) =
        (vs ++ pairUp (firstSeen (ts.filter (fun t => lookupTerm vs t = none))) n,
          n + (firstSeen (ts.filter (fun t => lookupTerm vs t = none))).length) := by
  intro ts
  induction ts with
  | nil => intro vs n; simp [firstSeen, pairUp]
  | cons t ts ih =>
    intro vs n
    rw [List.foldl_cons]
    match hlk : lookupTerm vs t with
    | some v =>
      have haddT : addTerm (vs, n) t = (vs, n) := by simp [addTerm, hlk]
      rw [haddT, ih vs n]
      have hfilter : (t :: ts).filter (fun t => lookupTerm vs t = none) =
          ts.filter (fun t => lookupTerm vs t = none) := by
        simp [List.filter_cons, hlk]
      rw [hfilter]
    | none =>
      have haddT : addTerm (vs, n) t = (vs ++ [(t, n)], n + 1) := by simp [addTerm, hlk]
      rw [haddT, ih (vs ++ [(t, n)]) (n + 1)]
      have hfilter : (t :: ts).filter (fun t => lookupTerm vs t = none) =
          t :: ts.filter (fun t => lookupTerm vs t = none) := by
        simp [List.filter_cons, hlk]
      rw [hfilter]
      have hff : (ts.filter (fun t => lookupTerm vs t = none)).filter (fun x => ¬ x = t) =
          ts.filter (fun x => lookupTerm (vs ++ [(t, n)]) x = none) := by
        rw [List.filter_filter]
        refine List.filter_congr ?_
        intro x _
        simp [lookupTerm_append_single_none, and_comm]
      rw [firstSeen, hff, pairUp]
      simp [List.append_assoc]
      omega

theorem buildVocab_eq {α : Type} [DecidableEq α] (ts : List α) :
    buildVocab ts = (pairUp (firstSeen ts) 0, (firstSeen ts).length) := by
  have h := buildVocab_aux ts [] 0
  have hfilter : ts.filter (fun t => lookupTerm ([] : List (α × Nat)) t = none) = ts := by
    simp [lookupTerm]
  rw [hfilter] at h
  simpa [buildVocab] using h

theorem lookupTerm_pairUp {α : Type} [DecidableEq α] :
    ∀ (L : List α) (k : Nat) (x : α) (i : Nat),
      lookupTerm (pairUp L k) x = some i →
      k ≤ i ∧ L.get? (i - k) = some x := by
  intro L
  induction L with
  | nil => intro k x i h; simp [pairUp, lookupTerm] at h
  | cons t ts ih =>
    intro k x i h
    rw [pairUp, lookupTerm] at h
    by_cases hx : t = x
    · rw [if_pos hx] at h
      obtain rfl : k = i := by injection h
      simp [hx]
    · rw [if_neg hx] at h
      obtain ⟨h1, h2⟩ := ih (k + 1) x i h
      refine ⟨by omega, ?_⟩
      have : i - k = (i - (k + 1)) + 1 := by omega
      rw [this]
      simpa using h2

/-- C8: term ids are assigned monotonically on first observation: the
vocabulary after a run pairs the distinct terms, in first-seen order, with
the ids 0, 1, 2, …, so the k-th distinct term receives id k-1, a repeated
term reuses its id, and the mapping is injective. -/
theorem claim_C8_term_id_assignment :
    (∀ (α : Type) [DecidableEq α] (ts : List α),
        buildVocab ts = (pairUp (firstSeen ts) 0, (firstSeen ts).length)) ∧
    (∀ (α : Type) [DecidableEq α] (ts : List α) (t1 t2 : α) (k : Nat),
        lookupTerm (buildVocab ts).1 t1 = some k →
        lookupTerm (buildVocab ts).1 t2 = some k → t1 = t2) := by
  constructor
  · intro α _ ts
    exact buildVocab_eq ts
  · intro α _ ts t1 t2 k h1 h2
    rw [buildVocab_eq] at h1 h2
    have g1 := (lookupTerm_pairUp (firstSeen ts) 0 t1 k h1).2
    have g2 := (lookupTerm_pairUp (firstSeen ts) 0 t2 k h2).2
    rw [g1] at g2
    injection g2

/-- C8 witness: the stream `[5, 7, 5]` assigns id 0 to 5 and id 1 to 7,
reusing id 0 for the repeated 5; injectivity applied at id 0. -/
theorem claim_C8_witness :
    buildVocab [5, 7, 5] = ([(5, 0), (7, 1)], 2) ∧ (5 : Nat) = 5 :=
  ⟨by decide, claim_C8_term_id_assignment.2 Nat [5, 7, 5] 5 5 0 (by decide) (by decide)⟩

/-- Lookup of a term id among the sorted `listings` entries, modelling
`binary_search_by_key(term_id, |&(t_id, _)| t_id)` followed by the
collection of `posting_iter` (src/src/index/mod.rs, lines 114-121); the
stored `Listing` internals are not under `src/`, so a listing is carried as
its decoded posting list. -/
def lookupListing : List (Nat × List Nat) → Nat → Option (List Nat)
  | [], _ => none
  | (tid, l) :: rest, t => if tid = t then some l else lookupListing rest t

/-- The page-cache index of src/src/index/mod.rs: vocabulary, per-term
listings sorted by term id, and the document counter. -/
structure Index (α : Type) where
  vocabulary : List (α × Nat)
  listings : List (Nat × List Nat)
  doc_count : Nat

/-- `Index::query_atom` (src/src/index/mod.rs, lines 114-121).  The Rust
receiver is `&self`, so the index cannot change; the embedding returns the
(unchanged) index next to the result to state that explicitly.  Every
branch returns a value, so the embedding is total: no panic. -/
def query_atom {α : Type} [DecidableEq α] (idx : Index α) (atom : α) :
    List Nat × Index α :=
  match lookupTerm idx.vocabulary atom with
  | some term_id =>
    match lookupListing idx.listings term_id with
    | some postings => (postings, idx)
    | none => ([], idx)
  | none => ([], idx)

/-- C7: querying a term that is not in the vocabulary returns the empty
vector, does not panic (the embedding is total), and leaves the index
unchanged. -/
theorem claim_C7_query_atom (α : Type) [DecidableEq α] (idx : Index α) (atom : α)
    (h : lookupTerm idx.vocabulary atom = none) :
    query_atom idx atom = ([], idx) := by
  rw [query_atom, h]

/-- C7 witness: a concrete index whose vocabulary maps the term 1 to id 0,
queried for the absent term 2. -/
theorem claim_C7_witness :
    query_atom ⟨[(1, 0)], [(0, [0, 2])], 1⟩ (2 : Nat) = ([], ⟨[(1, 0)], [(0, [0, 2])], 1⟩) :=
  claim_C7_query_atom Nat ⟨[(1, 0)], [(0, [0, 2])], 1⟩ 2 (by decide)

end Perlin

namespace Perlin

/-- The term loop of the producer in `index_documents`
(src/src/index/boolean_index/indexing.rs, lines 52-61): each term resolves
its id (inserting on first sight) and contributes a
`(term_id, doc_id, position)` triple. -/
def emitTerms {α : Type} [DecidableEq α] (st : List (α × Nat) × Nat) (doc_id : Nat)
    (pos : Nat) : List α → (List (α × Nat) × Nat) × List Triple
  | [] => (st, [])
  | t :: rest =>
    let tid := match lookupTerm st.1 t with
      | some id => id
      | none => st.2
    let r := emitTerms (addTerm st t) doc_id (pos + 1) rest
    (r.1, (tid, doc_id, pos) :: r.2)

/-- The document loop of the producer in `index_documents`
(src/src/index/boolean_index/indexing.rs, lines 50-63): doc ids are
assigned by enumeration. -/
def emitDocs {α : Type} [DecidableEq α] (st : List (α × Nat) × Nat) (doc_id : Nat) :
    List (List α) → (List (α × Nat) × Nat) × List Triple
  | [] => (st, [])
  | doc :: rest =>
    let r1 := emitTerms st doc_id 0 doc
    let r2 := emitDocs r1.1 (doc_id + 1) rest
    (r2.1, r1.2 ++ r2.2)

/-- The per-term chunk bytes the multi-threaded pipeline stores for a
collection of at most 256 documents: the producer emits one chunk, the
sorter groups it, and the merger appends each listing through
`write_listing` into a fresh chunk.  Modelled from the spec for the fresh
chunk base: `ChunkedStorage::new_chunk` is not under `src/`; a fresh
chunk's `last_doc_id` is 0 (§4.3). -/
def pipeline_term_bytes {α : Type} [DecidableEq α] (docs : List (List α)) :
    List (Nat × List Nat) :=
  (sort_and_group_chunk (emitDocs ([], 0) 0 docs).2).map
    (fun g => (g.1, (write_listing g.2 0).1))

/-- The term loop of `Index::index_collection` (src/src/index/mod.rs,
lines 40-47): each term contributes a `(term_id, doc_id)` pair, with no
position.  Modelled from the spec for `get_or_add` (§4.4, the vocabulary
module is not under `src/`): it is the same lookup-or-append as the
producer's `addTerm`. -/
def collectTerms {α : Type} [DecidableEq α] (st : List (α × Nat) × Nat) (doc_id : Nat) :
    List α → (List (α × Nat) × Nat) × List (Nat × Nat)
  | [] => (st, [])
  | t :: rest =>
    let tid := match lookupTerm st.1 t with
      | some id => id
      | none => st.2
    let r := collectTerms (addTerm st t) doc_id rest
    (r.1, (tid, doc_id) :: r.2)

/-- The document loop of `Index::index_collection` (src/src/index/mod.rs,
lines 40-47). -/
def collectDocs {α : Type} [DecidableEq α] (st : List (α × Nat) × Nat) (doc_id : Nat) :
    List (List α) → (List (α × Nat) × Nat) × List (Nat × Nat)
  | [] => (st, [])
  | doc :: rest =>
    let r1 := collectTerms st doc_id doc
    let r2 := collectDocs r1.1 (doc_id + 1) rest
    (r2.1, r1.2 ++ r2.2)

/-- The key order of `buff.sort_by_key(|&(tid, _)| tid)` in
`index_collection`. -/
def pairLe (a b : Nat × Nat) : Prop := a.1 ≤ b.1

instance : DecidableRel pairLe := fun a b => Nat.decLe a.1 b.1

instance : IsTotal (Nat × Nat) pairLe := ⟨fun a b => Nat.le_total a.1 b.1⟩

instance : IsTrans (Nat × Nat) pairLe := ⟨fun _ _ _ hab hbc => Nat.le_trans hab hbc⟩

/-- `Vec::dedup` as called by `index_collection` (src/src/index/mod.rs,
line 49): remove consecutive repeated `(term_id, doc_id)` pairs, keeping
the first of each run. -/
def dedupConsec : List (Nat × Nat) → List (Nat × Nat)
  | [] => []
  | [x] => [x]
  | x :: y :: rest =>
    if x = y then dedupConsec (x :: rest) else x :: dedupConsec (y :: rest)

/-- The grouping loop of `index_collection` (src/src/index/mod.rs, lines
50-64): like the pipeline's grouping but over position-less pairs, pushing
every further doc id of a term group unconditionally (duplicates were
removed by `dedup`).  Accumulators are kept reversed as in `group_loop`. -/
def group_pairs_loop (last_tid : Nat) (acc : List (Nat × List Nat)) :
    List (Nat × Nat) → List (Nat × List Nat)
  | [] => (acc.map (fun g => (g.1, g.2.reverse))).reverse
  | (tid, did) :: rest =>
    if last_tid < tid ∨ acc = [] then
      group_pairs_loop tid ((tid, [did]) :: acc) rest
    else
      match acc with
      | (gt, ds) :: accRest => group_pairs_loop last_tid ((gt, did :: ds) :: accRest) rest
      | _ => (acc.map (fun g => (g.1, g.2.reverse))).reverse

/-- The grouped position-less buffer built by `Index::index_collection`
(src/src/index/mod.rs, lines 39-64): collect pairs, sort stably by term
id, dedup, group. -/
def index_collection_grouped {α : Type} [DecidableEq α] (docs : List (List α)) :
    List (Nat × List Nat) :=
  group_pairs_loop 0 []
    (dedupConsec (List.insertionSort pairLe (collectDocs ([], 0) 0 docs).2))

/-- The per-term bytes the batch path stores.  Modelled from the spec: the
`Listing::add`/`commit` encoding (index/listing.rs) is not under `src/`;
§4.3 writes `vbyte(doc delta)`, `vbyte(position count)` and the position
deltas for each posting — the batch path's postings carry no positions. -/
def batch_term_bytes {α : Type} [DecidableEq α] (docs : List (List α)) :
    List (Nat × List Nat) :=
  (index_collection_grouped docs).map
    (fun g => (g.1, (write_listing (g.2.map (fun d => (d, ([] : List Nat)))) 0).1))

/-- C1: on the collection `[[0, 0]]` (one document, one term occurring
twice) the multi-threaded pipeline stores the posting `(doc 0, positions
[0, 1])` — bytes `[0x80, 0x82, 0x80, 0x81]` — while the batch path dedups
the `(term_id, doc_id)` pairs to a single position-less posting — bytes
`[0x80, 0x80]` — so the two paths do not produce byte-identical posting
storage. -/
theorem claim_C1_batch_vs_pipeline :
    pipeline_term_bytes [[0, 0]] = [(0, [128, 130, 128, 129])] ∧
    batch_term_bytes [[0, 0]] = [(0, [128, 128])] ∧
    pipeline_term_bytes [[0, 0]] ≠ batch_term_bytes [[0, 0]] := by
  have h1 : pipeline_term_bytes [[0, 0]] = [(0, [128, 130, 128, 129])] := by
    simp [pipeline_term_bytes, emitDocs, emitTerms, addTerm, lookupTerm,
      sort_and_group_chunk, sort_by_term, List.insertionSort, List.orderedInsert,
      termLe, group_loop, finalizeGroups, finalizePostings, write_listing,
      write_positions, vbyte]
  have h2 : batch_term_bytes [[0, 0]] = [(0, [128, 128])] := by
    simp [batch_term_bytes, index_collection_grouped, collectDocs, collectTerms,
      addTerm, lookupTerm, List.insertionSort, List.orderedInsert, pairLe,
      dedupConsec, group_pairs_loop, write_listing, write_positions, vbyte]
  refine ⟨h1, h2, ?_⟩
  rw [h1, h2]
  decide

/-- The shared state of the ordered hand-off
(src/src/index/boolean_index/indexing.rs, lines 122-132): the atomic
counter `sync`, the sequence of grouped chunks the merger has received (in
channel order), the chunk ids finished by sorter workers and not yet sent,
and the next chunk sequence number the producer will hand out. -/
structure HandoffState where
  counter : Nat
  sent : List Nat
  pending : List Nat
  nextId : Nat

/-- One scheduler step of the hand-off.  `arrive` models the producer
handing chunk `nextId` to some worker (chunk ids increase monotonically,
indexing.rs lines 64-72).  `send` models a worker leaving its busy-wait
loop: the loop body sends chunk `k` over the channel only when
`sync.load() == k`, then increments the counter; no other worker can pass
its own guard in between, because the counter still differs from every
other pending id, so the send and the `fetch_add` form one step. -/
inductive HandoffStep : HandoffState → HandoffState → Prop
  | arrive (s : HandoffState) :
      HandoffStep s ⟨s.counter, s.sent, s.pending ++ [s.nextId], s.nextId + 1⟩
  | send (s : HandoffState) (k : Nat) (hmem : k ∈ s.pending) (hctr : k = s.counter) :
      HandoffStep s ⟨s.counter + 1, s.sent ++ [k], s.pending.erase k, s.nextId⟩

/-- The initial hand-off state: counter 0, nothing sent, nothing pending. -/
def handoffInit : HandoffState := ⟨0, [], [], 0⟩

/-- A state the hand-off can reach under some interleaving. -/
def HandoffReachable (s : HandoffState) : Prop :=
  Relation.ReflTransGen HandoffStep handoffInit s

/-- The hand-off invariant: the merger has received exactly the chunks
`0, …, counter-1` in that order, and every pending chunk id is at least
`counter` and below `nextId`, each id pending at most once. -/
def HandoffInv (s : HandoffState) : Prop :=
  s.sent = List.range s.counter ∧ s.counter ≤ s.nextId ∧ s.pending.Nodup ∧
    ∀ k ∈ s.pending, s.counter ≤ k ∧ k < s.nextId

theorem handoffInv_init : HandoffInv handoffInit := by
  refine ⟨rfl, Nat.le_refl 0, List.nodup_nil, ?_⟩
  intro k hk
  simp [handoffInit] at hk

theorem handoffInv_step {s s' : HandoffState} (hstep : HandoffStep s s')
    (hinv : HandoffInv s) : HandoffInv s' := by
  obtain ⟨hsent, hcn, hnd, hpend⟩ := hinv
  cases hstep with
  | arrive =>
    dsimp only [HandoffInv]
    refine ⟨hsent, by omega, ?_, ?_⟩
    · rw [List.nodup_append]
      refine ⟨hnd, List.nodup_singleton _, ?_⟩
      intro a ha hb
      have := (hpend a ha).2
      simp at hb
      omega
    · intro k hk
      rcases List.mem_append.mp hk with hk | hk
      · have := hpend k hk
        constructor <;> omega
      · simp at hk
        subst hk
        constructor <;> omega
  | send k hmem hctr =>
    dsimp only [HandoffInv]
    subst hctr
    refine ⟨?_, ?_, hnd.erase _, ?_⟩
    · rw [hsent, List.range_succ]
    · have := (hpend _ hmem).2
      omega
    · intro j hj
      have hjp := hpend j (List.mem_of_mem_erase hj)
      have hne : j ≠ s.counter := by
        intro h
        subst h
        exact (List.Nodup.not_mem_erase hnd) hj
      constructor <;> omega

theorem handoffInv_reachable {s : HandoffState} (h : HandoffReachable s) : HandoffInv s := by
  induction h with
  | refl => exact handoffInv_init
  | tail _ hstep ih => exact handoffInv_step hstep ih

/-- C9: under every interleaving of the sorter workers, the merger receives
the grouped chunks in strictly increasing chunk-sequence order — in every
reachable state the received sequence is exactly `0, …, counter-1`, so no
chunk `k` is observed before every chunk `j < k`. -/
theorem claim_C9_ordered_handoff (s : HandoffState) (h : HandoffReachable s) :
    s.sent = List.range s.counter ∧ s.sent.Pairwise (· < ·) := by
  have hinv := handoffInv_reachable h
  refine ⟨hinv.1, ?_⟩
  rw [hinv.1]
  exact List.pairwise_lt_range _

/-- C9 witness: a concrete schedule — two chunks arrive, chunk 0 (whose
worker finished second) is sent, then chunk 1 — reaches the state with
`sent = [0, 1]`. -/
theorem claim_C9_witness :
    ([0, 1] : List Nat) = List.range 2 ∧ ([0, 1] : List Nat).Pairwise (· < ·) := by
  have h0 : HandoffStep handoffInit ⟨0, [], [0], 1⟩ := HandoffStep.arrive handoffInit
  have h1 : HandoffStep ⟨0, [], [0], 1⟩ ⟨0, [], [0, 1], 2⟩ :=
    HandoffStep.arrive ⟨0, [], [0], 1⟩
  have h2 : HandoffStep ⟨0, [], [0, 1], 2⟩ ⟨1, [0], [1], 2⟩ :=
    HandoffStep.send ⟨0, [], [0, 1], 2⟩ 0 (by decide) rfl
  have h3 : HandoffStep ⟨1, [0], [1], 2⟩ ⟨2, [0, 1], [], 2⟩ :=
    HandoffStep.send ⟨1, [0], [1], 2⟩ 1 (by decide) rfl
  have hreach : HandoffReachable ⟨2, [0, 1], [], 2⟩ :=
    Relation.ReflTransGen.tail
      (Relation.ReflTransGen.tail
        (Relation.ReflTransGen.tail
          (Relation.ReflTransGen.tail Relation.ReflTransGen.refl h0) h1) h2) h3
  exact claim_C9_ordered_handoff ⟨2, [0, 1], [], 2⟩ hreach

end Perlin

namespace Perlin

/-- The doc ids of a posting stream, in stream order. -/
def docsOf (l : List Posting) : List Nat := l.map Prod.fst

theorem docsOf_nil : docsOf [] = [] := rfl

theorem docsOf_cons (q : Posting) (l : List Posting) : docsOf (q :: l) = q.1 :: docsOf l := rfl

/-- One call of `next_or` (nary_query_iterator.rs, lines 196-225) for two
operand streams, each modelled as its remaining posting list: the minimum
of the peeked doc ids is found, every operand whose peek equals it is
advanced, and the last advanced operand's posting is returned together
with the two advanced streams. -/
def next_or : List Posting → List Posting → Option (Posting × List Posting × List Posting)
  | [], [] => none
  | a :: as, [] => some (a, as, [])
  | [], b :: bs => some (b, [], bs)
  | a :: as, b :: bs =>
    if a.1 < b.1 then some (a, as, b :: bs)
    else if b.1 < a.1 then some (b, a :: as, bs)
    else some (b, as, bs)

/-- `next_or` driven repeatedly; each successful call consumes at least one
posting, so `len(xs) + len(ys)` calls exhaust both operands. -/
def or_run (fuel : Nat) (xs ys : List Posting) : List Posting :=
  match fuel with
  | 0 => []
  | fuel + 1 =>
    match next_or xs ys with
    | none => []
    | some (p, A, B) => p :: or_run fuel A B

/-- The Or iterator driven to exhaustion. -/
def or_exhaust (xs ys : List Posting) : List Posting :=
  or_run (xs.length + ys.length) xs ys

/-- The ascending dedup-merge of two doc-id lists: the reference value of
the Or iterator's doc-id output. -/
def or_merge : List Nat → List Nat → List Nat
  | [], [] => []
  | a :: as, [] => a :: or_merge as []
  | [], b :: bs => b :: or_merge [] bs
  | a :: as, b :: bs =>
    if a < b then a :: or_merge as (b :: bs)
    else if b < a then b :: or_merge (a :: as) bs
    else b :: or_merge as bs
termination_by ds es => ds.length + es.length

theorem or_run_eq_merge :
    ∀ (fuel : Nat) (xs ys : List Posting), xs.length + ys.length ≤ fuel →
      docsOf (or_run fuel xs ys) = or_merge (docsOf xs) (docsOf ys) := by
  intro fuel
  induction fuel with
  | zero =>
    intro xs ys hn
    match xs, ys with
    | [], [] => simp [or_run, or_merge.eq_def, docsOf]
    | a :: as, _ => simp at hn
    | [], b :: bs => simp at hn
  | succ fuel ih =>
    intro xs ys hn
    match xs, ys with
    | [], [] => rw [or_run]; simp [next_or, or_merge.eq_def, docsOf]
    | a :: as, [] =>
      rw [or_run]
      simp only [next_or, docsOf, List.map_cons, List.map_nil]
      rw [or_merge]
      simp only [List.length_cons, List.length_nil] at hn
      have := ih as [] (by (try simp only [List.length_cons, List.length_nil]); omega)
      simp only [docsOf, List.map_nil] at this
      rw [this]
    | [], b :: bs =>
      rw [or_run]
      simp only [next_or, docsOf, List.map_cons, List.map_nil]
      rw [or_merge]
      simp only [List.length_cons, List.length_nil] at hn
      have := ih [] bs (by (try simp only [List.length_cons, List.length_nil]); omega)
      simp only [docsOf, List.map_nil] at this
      rw [this]
    | a :: as, b :: bs =>
      rw [or_run]
      simp only [next_or]
      simp only [List.length_cons] at hn
      simp only [docsOf, List.map_cons]
      rw [or_merge.eq_def]
      dsimp only
      by_cases h1 : a.1 < b.1
      · rw [if_pos h1, if_pos h1]
        dsimp only
        have := ih as (b :: bs) (by (try simp only [List.length_cons, List.length_nil]); omega)
        try simp only [docsOf, List.map_cons] at this
        simp only [List.map_cons, this]
      · rw [if_neg h1, if_neg h1]
        by_cases h2 : b.1 < a.1
        · rw [if_pos h2, if_pos h2]
          dsimp only
          have := ih (a :: as) bs (by (try simp only [List.length_cons, List.length_nil]); omega)
          try simp only [docsOf, List.map_cons] at this
          simp only [List.map_cons, this]
        · rw [if_neg h2, if_neg h2]
          dsimp only
          have := ih as bs (by omega)
          try simp only [docsOf, List.map_cons] at this
          simp only [List.map_cons, this]

theorem or_merge_mem :
    ∀ (ds es : List Nat) (d : Nat), d ∈ or_merge ds es ↔ d ∈ ds ∨ d ∈ es := by
  intro ds es
  induction ds, es using or_merge.induct with
  | case1 => intro d; rw [or_merge]; simp
  | case2 a as ih => intro d; rw [or_merge]; simp [ih d]
  | case3 b bs ih => intro d; rw [or_merge]; simp [ih d]
  | case4 a as b bs h1 ih =>
    intro d
    rw [or_merge, if_pos h1]
    simp only [List.mem_cons, ih d]
    tauto
  | case5 a as b bs h1 h2 ih =>
    intro d
    rw [or_merge, if_neg h1, if_pos h2]
    simp only [List.mem_cons, ih d]
    tauto
  | case6 a as b bs h1 h2 ih =>
    intro d
    have hab : a = b := by omega
    subst hab
    rw [or_merge, if_neg h1, if_neg h2]
    simp only [List.mem_cons, ih d]
    tauto

theorem or_merge_pairwise :
    ∀ (ds es : List Nat), ds.Pairwise (· < ·) → es.Pairwise (· < ·) →
      (or_merge ds es).Pairwise (· < ·) := by
  intro ds es
  induction ds, es using or_merge.induct with
  | case1 => intro _ _; rw [or_merge]; exact List.Pairwise.nil
  | case2 a as ih =>
    intro hd he
    obtain ⟨ha, hd'⟩ := List.pairwise_cons.mp hd
    rw [or_merge, List.pairwise_cons]
    refine ⟨?_, ih hd' he⟩
    intro x hx
    rcases (or_merge_mem as [] x).mp hx with h | h
    · exact ha x h
    · simp at h
  | case3 b bs ih =>
    intro hd he
    obtain ⟨hb, he'⟩ := List.pairwise_cons.mp he
    rw [or_merge, List.pairwise_cons]
    refine ⟨?_, ih hd he'⟩
    intro x hx
    rcases (or_merge_mem [] bs x).mp hx with h | h
    · simp at h
    · exact hb x h
  | case4 a as b bs h1 ih =>
    intro hd he
    obtain ⟨ha, hd'⟩ := List.pairwise_cons.mp hd
    obtain ⟨hb, he'⟩ := List.pairwise_cons.mp he
    rw [or_merge, if_pos h1, List.pairwise_cons]
    refine ⟨?_, ih hd' he⟩
    intro x hx
    rcases (or_merge_mem as (b :: bs) x).mp hx with h | h
    · exact ha x h
    · rcases List.mem_cons.mp h with h | h
      · omega
      · have := hb x h
        omega
  | case5 a as b bs h1 h2 ih =>
    intro hd he
    obtain ⟨ha, hd'⟩ := List.pairwise_cons.mp hd
    obtain ⟨hb, he'⟩ := List.pairwise_cons.mp he
    rw [or_merge, if_neg h1, if_pos h2, List.pairwise_cons]
    refine ⟨?_, ih hd he'⟩
    intro x hx
    rcases (or_merge_mem (a :: as) bs x).mp hx with h | h
    · rcases List.mem_cons.mp h with h | h
      · omega
      · have := ha x h
        omega
    · exact hb x h
  | case6 a as b bs h1 h2 ih =>
    intro hd he
    have hab : a = b := by omega
    subst hab
    obtain ⟨ha, hd'⟩ := List.pairwise_cons.mp hd
    obtain ⟨hb, he'⟩ := List.pairwise_cons.mp he
    rw [or_merge, if_neg h1, if_neg h2, List.pairwise_cons]
    refine ⟨?_, ih hd' he'⟩
    intro x hx
    rcases (or_merge_mem as bs x).mp hx with h | h
    · exact ha x h
    · exact hb x h

/-- C4: the Or iterator over two strictly ascending operand streams,
driven to exhaustion, yields the union of the doc ids in strictly
ascending order, each doc id exactly once; on each step every operand
whose peeked doc id equals the current minimum is advanced and the last
such operand's posting is returned. -/
theorem claim_C4_nary_or :
    (∀ (xs ys : List Posting),
        (docsOf xs).Pairwise (· < ·) → (docsOf ys).Pairwise (· < ·) →
        (docsOf (or_exhaust xs ys)).Pairwise (· < ·) ∧
          ∀ d, d ∈ docsOf (or_exhaust xs ys) ↔ d ∈ docsOf xs ∨ d ∈ docsOf ys) ∧
    (∀ (a : Posting) (as : List Posting) (b : Posting) (bs : List Posting),
        a.1 = b.1 → next_or (a :: as) (b :: bs) = some (b, as, bs)) := by
  constructor
  · intro xs ys hx hy
    have heq := or_run_eq_merge (xs.length + ys.length) xs ys le_rfl
    rw [or_exhaust, heq]
    exact ⟨or_merge_pairwise _ _ hx hy, fun d => or_merge_mem _ _ d⟩
  · intro a as b bs hab
    have h1 : ¬ a.1 < b.1 := by omega
    have h2 : ¬ b.1 < a.1 := by omega
    rw [next_or, if_neg h1, if_neg h2]

/-- C4 witness: the Or iterator on the streams with doc ids `[0, 2]` and
`[1, 2]` — ascending output, and membership of doc id 2 coming from both
sides. -/
theorem claim_C4_witness :
    (docsOf (or_exhaust [(0, [0]), (2, [1])] [(1, [0]), (2, [2])])).Pairwise (· < ·) ∧
      (2 ∈ docsOf (or_exhaust [(0, [0]), (2, [1])] [(1, [0]), (2, [2])]) ↔
        2 ∈ docsOf [(0, [0]), (2, [1])] ∨ 2 ∈ docsOf [(1, [0]), (2, [2])]) := by
  have h := claim_C4_nary_or.1 [(0, [0]), (2, [1])] [(1, [0]), (2, [2])]
    (by decide) (by decide)
  exact ⟨h.1, h.2 2⟩

end Perlin

namespace Perlin

/-- The inner loop of `next_and` (nary_query_iterator.rs, lines 227-249)
for two operand streams.  `focus` is the posting last returned by a
`next`/`next_seek` on the operand whose remainder is `mine`; `other` is
the remainder of the operand to be sought next; `b` records whether the
focus-holding operand is operand 0.  `next_seek(focus)` advances past
postings with doc id below `focus`'s (the skip case), then: an equal doc
id completes the pass (the emit case, consuming the matching posting), a
larger one becomes the new focus and the roles swap. -/
def next_and_loop (focus : Posting) (other mine : List Posting) (b : Bool) :
    Option (Posting × List Posting × List Posting) :=
  match other with
  | [] => none
  | v :: rest =>
    if v.1 < focus.1 then next_and_loop focus rest mine b
    else if v.1 = focus.1 then some (focus, if b then (mine, rest) else (rest, mine))
    else next_and_loop v mine rest (!b)
termination_by other.length + mine.length
decreasing_by
  · simp only [List.length_cons]; omega
  · simp only [List.length_cons]; omega

/-- One call of `next_and` (nary_query_iterator.rs, lines 227-249): the
focus starts as `operands[0].next()`, and on success the yielded posting
and both advanced operand streams are returned. -/
def next_and (xs ys : List Posting) : Option (Posting × List Posting × List Posting) :=
  match xs with
  | [] => none
  | f :: xs' => next_and_loop f ys xs' true

/-- `next_and` driven repeatedly; each successful call consumes the
posting carrying the common doc id from both operands, so
`len(xs) + len(ys)` calls exhaust the iterator. -/
def and_run (fuel : Nat) (xs ys : List Posting) : List Posting :=
  match fuel with
  | 0 => []
  | fuel + 1 =>
    match next_and xs ys with
    | none => []
    | some (p, A, B) => p :: and_run fuel A B

/-- The And iterator driven to exhaustion. -/
def and_exhaust (xs ys : List Posting) : List Posting :=
  and_run (xs.length + ys.length) xs ys

/-- The first common element of two ascending lists, by a two-pointer
walk: the reference value of the doc id `next_and` yields. -/
def firstCommonD : List Nat → List Nat → Option Nat
  | a :: as, b :: bs =>
    if a < b then firstCommonD as (b :: bs)
    else if b < a then firstCommonD (a :: as) bs
    else some a
  | _, _ => none
termination_by ds es => ds.length + es.length

theorem firstCommonD_nil_left (es : List Nat) : firstCommonD [] es = none := by
  rw [firstCommonD.eq_def]

theorem firstCommonD_nil_right (ds : List Nat) : firstCommonD ds [] = none := by
  cases ds <;> rw [firstCommonD.eq_def]

theorem firstCommonD_mem :
    ∀ (ds es : List Nat) (d : Nat), firstCommonD ds es = some d → d ∈ ds ∧ d ∈ es := by
  intro ds es
  induction ds, es using firstCommonD.induct with
  | case1 a as b bs h1 ih =>
    intro d h
    rw [firstCommonD, if_pos h1] at h
    obtain ⟨h2, h3⟩ := ih d h
    exact ⟨List.mem_cons_of_mem _ h2, h3⟩
  | case2 a as b bs h1 h2 ih =>
    intro d h
    rw [firstCommonD, if_neg h1, if_pos h2] at h
    obtain ⟨h3, h4⟩ := ih d h
    exact ⟨h3, List.mem_cons_of_mem _ h4⟩
  | case3 a as b bs h1 h2 =>
    intro d h
    rw [firstCommonD, if_neg h1, if_neg h2] at h
    injection h with h
    have hab : a = b := by omega
    constructor
    · rw [← h]
      exact List.mem_cons_self _ _
    · rw [← h, hab]
      exact List.mem_cons_self _ _
  | case4 ds es hmatch =>
    intro d h
    match ds, es with
    | [], _ => rw [firstCommonD_nil_left] at h; exact absurd h (by simp)
    | _ :: _, [] => rw [firstCommonD_nil_right] at h; exact absurd h (by simp)
    | a :: as, b :: bs => exact (hmatch a as b bs rfl rfl).elim

theorem firstCommonD_comm : ∀ (ds es : List Nat), firstCommonD ds es = firstCommonD es ds := by
  intro ds es
  induction ds, es using firstCommonD.induct with
  | case1 a as b bs h1 ih =>
    have h2 : ¬ b < a := by omega
    rw [firstCommonD, if_pos h1, ih, firstCommonD, if_neg h2, if_pos h1]
  | case2 a as b bs h1 h2 ih =>
    rw [firstCommonD, if_neg h1, if_pos h2, ih, firstCommonD, if_pos h2]
  | case3 a as b bs h1 h2 =>
    have hab : a = b := by omega
    subst hab
    rw [firstCommonD, if_neg h1, if_neg h2, firstCommonD, if_neg h2, if_neg h1]
  | case4 ds es hmatch =>
    match ds, es with
    | [], _ => rw [firstCommonD_nil_left, firstCommonD_nil_right]
    | _ :: _, [] => rw [firstCommonD_nil_right, firstCommonD_nil_left]
    | a :: as, b :: bs => exact (hmatch a as b bs rfl rfl).elim

theorem filter_inter_of_none :
    ∀ (ds es : List Nat), ds.Pairwise (· < ·) → es.Pairwise (· < ·) →
      firstCommonD ds es = none → ds.filter (fun x => x ∈ es) = [] := by
  intro ds es
  induction ds, es using firstCommonD.induct with
  | case1 a as b bs h1 ih =>
    intro hd he h
    rw [firstCommonD, if_pos h1] at h
    obtain ⟨_, hd'⟩ := List.pairwise_cons.mp hd
    obtain ⟨hb, _⟩ := List.pairwise_cons.mp he
    have hnotin : ¬ a ∈ b :: bs := by
      intro hmem
      rcases List.mem_cons.mp hmem with hh | hh
      · omega
      · have := hb a hh
        omega
    rw [List.filter_cons, if_neg (by simpa using hnotin)]
    exact ih hd' he h
  | case2 a as b bs h1 h2 ih =>
    intro hd he h
    rw [firstCommonD, if_neg h1, if_pos h2] at h
    obtain ⟨_, he'⟩ := List.pairwise_cons.mp he
    obtain ⟨ha, _⟩ := List.pairwise_cons.mp hd
    have hcongr : (a :: as).filter (fun x => x ∈ b :: bs) =
        (a :: as).filter (fun x => x ∈ bs) := by
      refine List.filter_congr ?_
      intro x hx
      have hxb : ¬ x = b := by
        rcases List.mem_cons.mp hx with hh | hh
        · omega
        · have := ha x hh
          omega
      simp [List.mem_cons, hxb]
    rw [hcongr]
    exact ih hd he' h
  | case3 a as b bs h1 h2 =>
    intro _ _ h
    rw [firstCommonD, if_neg h1, if_neg h2] at h
    exact absurd h (by simp)
  | case4 ds es hmatch =>
    intro _ _ _
    match ds, es with
    | [], _ => rfl
    | _ :: _, [] => simp
    | a :: as, b :: bs => exact (hmatch a as b bs rfl rfl).elim

theorem filter_inter_of_some :
    ∀ (ds es : List Nat), ds.Pairwise (· < ·) → es.Pairwise (· < ·) →
      ∀ d, firstCommonD ds es = some d →
      ds.filter (fun x => x ∈ es) =
        d :: (ds.filter (fun x => d < x)).filter (fun x => x ∈ es.filter (fun y => d < y)) := by
  intro ds es
  induction ds, es using firstCommonD.induct with
  | case1 a as b bs h1 ih =>
    intro hd he d h
    rw [firstCommonD, if_pos h1] at h
    obtain ⟨ha, hd'⟩ := List.pairwise_cons.mp hd
    obtain ⟨hb, _⟩ := List.pairwise_cons.mp he
    obtain ⟨hdas, _⟩ := firstCommonD_mem as (b :: bs) d h
    have hnotin : ¬ a ∈ b :: bs := by
      intro hmem
      rcases List.mem_cons.mp hmem with hh | hh
      · omega
      · have := hb a hh
        omega
    have hda : a < d := ha d hdas
    have houter : List.filter (fun x => decide (x ∈ b :: bs)) (a :: as) =
        List.filter (fun x => decide (x ∈ b :: bs)) as := by
      simp only [List.filter_cons]
      rw [if_neg (by simpa using hnotin)]
    have hinner : List.filter (fun x => decide (d < x)) (a :: as) =
        List.filter (fun x => decide (d < x)) as := by
      simp only [List.filter_cons]
      rw [if_neg (by simp only [decide_eq_true_eq]; omega)]
    rw [houter, hinner]
    exact ih hd' he d h
  | case2 a as b bs h1 h2 ih =>
    intro hd he d h
    rw [firstCommonD, if_neg h1, if_pos h2] at h
    obtain ⟨ha, _⟩ := List.pairwise_cons.mp hd
    obtain ⟨hb, he'⟩ := List.pairwise_cons.mp he
    obtain ⟨_, hdbs⟩ := firstCommonD_mem (a :: as) bs d h
    have hdb : b < d := hb d hdbs
    have hcongr : List.filter (fun x => decide (x ∈ b :: bs)) (a :: as) =
        List.filter (fun x => decide (x ∈ bs)) (a :: as) := by
      refine List.filter_congr ?_
      intro x hx
      have hxb : ¬ x = b := by
        rcases List.mem_cons.mp hx with hh | hh
        · omega
        · have := ha x hh
          omega
      simp [List.mem_cons, hxb]
    have hes : List.filter (fun y => decide (d < y)) (b :: bs) =
        List.filter (fun y => decide (d < y)) bs := by
      simp only [List.filter_cons]
      rw [if_neg (by simp only [decide_eq_true_eq]; omega)]
    rw [hcongr, hes]
    exact ih hd he' d h
  | case3 a as b bs h1 h2 =>
    intro hd he d h
    rw [firstCommonD, if_neg h1, if_neg h2] at h
    injection h with h
    obtain ⟨ha, hd'⟩ := List.pairwise_cons.mp hd
    obtain ⟨hb, he'⟩ := List.pairwise_cons.mp he
    have hab : a = b := by omega
    subst hab
    subst h
    have hfilter1 : List.filter (fun x => decide (a < x)) (a :: as) = as := by
      simp only [List.filter_cons]
      rw [if_neg (by simp)]
      refine List.filter_eq_self.mpr ?_
      intro x hx
      simpa using ha x hx
    have hfilter2 : List.filter (fun y => decide (a < y)) (a :: bs) = bs := by
      simp only [List.filter_cons]
      rw [if_neg (by simp)]
      refine List.filter_eq_self.mpr ?_
      intro y hy
      simpa using hb y hy
    rw [hfilter1, hfilter2]
    simp only [List.filter_cons]
    rw [if_pos (by simp)]
    congr 1
    refine List.filter_congr ?_
    intro x hx
    have hxd : ¬ x = a := by
      have := ha x hx
      omega
    simp [List.mem_cons, hxd]
  | case4 ds es hmatch =>
    intro _ _ d h
    match ds, es with
    | [], _ => rw [firstCommonD_nil_left] at h; exact absurd h (by simp)
    | _ :: _, [] => rw [firstCommonD_nil_right] at h; exact absurd h (by simp)
    | a :: as, b :: bs => exact (hmatch a as b bs rfl rfl).elim

theorem next_and_loop_spec :
    ∀ (n : Nat) (focus : Posting) (other mine : List Posting) (b : Bool),
      other.length + mine.length ≤ n →
      (focus.1 :: docsOf mine).Pairwise (· < ·) →
      (docsOf other).Pairwise (· < ·) →
      (next_and_loop focus other mine b = none →
          firstCommonD (focus.1 :: docsOf mine) (docsOf other) = none) ∧
      (∀ (p : Posting) (A B : List Posting),
          next_and_loop focus other mine b = some (p, A, B) →
          firstCommonD (focus.1 :: docsOf mine) (docsOf other) = some p.1 ∧
          (if b then A else B) = (focus :: mine).filter (fun q => p.1 < q.1) ∧
          (if b then B else A) = other.filter (fun q => p.1 < q.1)) := by
  intro n
  induction n with
  | zero =>
    intro focus other mine b hn hx hy
    match other with
    | [] =>
      constructor
      · intro _
        simp only [docsOf_nil]
        exact firstCommonD_nil_right _
      · intro p A B h
        rw [next_and_loop] at h
        exact absurd h (by simp)
    | v :: rest => simp at hn
  | succ n ih =>
    intro focus other mine b hn hx hy
    match other with
    | [] =>
      constructor
      · intro _
        simp only [docsOf_nil]
        exact firstCommonD_nil_right _
      · intro p A B h
        rw [next_and_loop] at h
        exact absurd h (by simp)
    | v :: rest =>
      simp only [List.length_cons] at hn
      simp only [docsOf_cons] at hy ⊢
      obtain ⟨hv, hy'⟩ := List.pairwise_cons.mp hy
      obtain ⟨hf, hx'⟩ := List.pairwise_cons.mp hx
      rw [next_and_loop.eq_def]
      dsimp only
      by_cases hc1 : v.1 < focus.1
      · -- skip: the seek drops v
        rw [if_pos hc1]
        have hrec := ih focus rest mine b (by omega) hx hy'
        have hfc : firstCommonD (focus.1 :: docsOf mine) (v.1 :: docsOf rest) =
            firstCommonD (focus.1 :: docsOf mine) (docsOf rest) := by
          rw [firstCommonD, if_neg (by omega), if_pos hc1]
        rw [hfc]
        refine ⟨hrec.1, ?_⟩
        intro p A B h
        obtain ⟨g1, g2, g3⟩ := hrec.2 p A B h
        have hp1 : focus.1 ≤ p.1 := by
          obtain ⟨hm, _⟩ := firstCommonD_mem _ _ _ g1
          rcases List.mem_cons.mp hm with hh | hh
          · omega
          · have := List.pairwise_cons.mp hx |>.1 p.1 hh
            omega
        refine ⟨g1, g2, ?_⟩
        have hvdrop : List.filter (fun q => decide (p.1 < q.1)) (v :: rest) =
            List.filter (fun q => decide (p.1 < q.1)) rest := by
          simp only [List.filter_cons]
          rw [if_neg (by simp only [decide_eq_true_eq]; omega)]
        rw [hvdrop]
        exact g3
      · rw [if_neg hc1]
        by_cases hc2 : v.1 = focus.1
        · -- emit: the pass is complete
          rw [if_pos hc2]
          constructor
          · intro h
            exact absurd h (by simp)
          · intro p A B h
            have hfc : firstCommonD (focus.1 :: docsOf mine) (v.1 :: docsOf rest) =
                some focus.1 := by
              rw [firstCommonD, if_neg (by omega), if_neg (by omega)]
            have hmine : List.filter (fun q => decide (focus.1 < q.1)) (focus :: mine) =
                mine := by
              simp only [List.filter_cons]
              rw [if_neg (by simp)]
              refine List.filter_eq_self.mpr ?_
              intro q hq
              simp only [decide_eq_true_eq]
              exact hf q.1 (List.mem_map_of_mem Prod.fst hq)
            have hrest : List.filter (fun q => decide (focus.1 < q.1)) (v :: rest) =
                rest := by
              simp only [List.filter_cons]
              rw [if_neg (by simp only [decide_eq_true_eq]; omega)]
              refine List.filter_eq_self.mpr ?_
              intro q hq
              simp only [decide_eq_true_eq]
              have := hv q.1 (List.mem_map_of_mem Prod.fst hq)
              omega
            cases b
            · simp only [Bool.false_eq_true, if_false, ite_false] at h ⊢
              simp only [Option.some.injEq, Prod.mk.injEq] at h
              obtain ⟨hp, hA, hB⟩ := h
              subst hp hA hB
              exact ⟨hfc, by rw [hmine], by rw [hrest]⟩
            · simp only [if_true, ite_true] at h ⊢
              simp only [Option.some.injEq, Prod.mk.injEq] at h
              obtain ⟨hp, hA, hB⟩ := h
              subst hp hA hB
              exact ⟨hfc, by rw [hmine], by rw [hrest]⟩
        · -- swap: v becomes the new focus
          have hc3 : focus.1 < v.1 := by omega
          rw [if_neg hc2]
          have hrec := ih v mine rest (!b) (by omega)
            (List.pairwise_cons.mpr ⟨hv, hy'⟩) hx'
          have hfc : firstCommonD (focus.1 :: docsOf mine) (v.1 :: docsOf rest) =
              firstCommonD (v.1 :: docsOf rest) (docsOf mine) := by
            rw [firstCommonD, if_pos hc3, firstCommonD_comm]
          rw [hfc]
          constructor
          · intro h
            exact hrec.1 h
          · intro p A B h
            obtain ⟨g1, g2, g3⟩ := hrec.2 p A B h
            have hp1 : v.1 ≤ p.1 := by
              obtain ⟨hm, _⟩ := firstCommonD_mem _ _ _ g1
              rcases List.mem_cons.mp hm with hh | hh
              · omega
              · have := hv p.1 hh
                omega
            have hfdrop : List.filter (fun q => decide (p.1 < q.1)) (focus :: mine) =
                List.filter (fun q => decide (p.1 < q.1)) mine := by
              simp only [List.filter_cons]
              rw [if_neg (by simp only [decide_eq_true_eq]; omega)]
            refine ⟨g1, ?_, ?_⟩
            · rw [hfdrop]
              cases b
              · simpa using g3
              · simpa using g3
            · cases b
              · simpa using g2
              · simpa using g2

theorem next_and_spec (xs ys : List Posting)
    (hx : (docsOf xs).Pairwise (· < ·)) (hy : (docsOf ys).Pairwise (· < ·)) :
    (next_and xs ys = none → firstCommonD (docsOf xs) (docsOf ys) = none) ∧
    (∀ (p : Posting) (A B : List Posting), next_and xs ys = some (p, A, B) →
      firstCommonD (docsOf xs) (docsOf ys) = some p.1 ∧
      A = xs.filter (fun q => p.1 < q.1) ∧ B = ys.filter (fun q => p.1 < q.1)) := by
  match xs with
  | [] =>
    constructor
    · intro _
      rw [docsOf_nil]
      exact firstCommonD_nil_left _
    · intro p A B h
      rw [next_and] at h
      exact absurd h (by simp)
  | f :: xs' =>
    rw [next_and]
    simp only [docsOf_cons] at hx ⊢
    have hspec := next_and_loop_spec (ys.length + xs'.length) f ys xs' true le_rfl hx hy
    refine ⟨hspec.1, ?_⟩
    intro p A B h
    obtain ⟨g1, g2, g3⟩ := hspec.2 p A B h
    simp only [if_true] at g2 g3
    exact ⟨g1, g2, g3⟩

theorem docsOf_filter_doc (l : List Posting) (d : Nat) :
    docsOf (l.filter (fun q => decide (d < q.1))) =
      (docsOf l).filter (fun x => decide (d < x)) := by
  induction l with
  | nil => rfl
  | cons q l ih =>
    simp only [List.filter_cons, docsOf_cons]
    by_cases h : d < q.1
    · rw [if_pos (by simpa using h), if_pos (by simpa using h)]
      simp only [docsOf_cons, ih]
    · rw [if_neg (by simpa using h), if_neg (by simpa using h)]
      exact ih

theorem length_filter_lt {α : Type} (l : List α) (p : α → Bool) (x : α)
    (hx : x ∈ l) (hpx : ¬ p x) : (l.filter p).length < l.length := by
  induction l with
  | nil => simp at hx
  | cons a l ih =>
    rcases List.mem_cons.mp hx with h | h
    · subst h
      rw [List.filter_cons, if_neg (by simpa using hpx)]
      have := List.length_filter_le p l
      simp only [List.length_cons]
      omega
    · rw [List.filter_cons]
      split
      · simp only [List.length_cons]
        have := ih h
        omega
      · have := ih h
        simp only [List.length_cons]
        omega

theorem and_run_eq :
    ∀ (fuel : Nat) (xs ys : List Posting), xs.length + ys.length ≤ fuel →
      (docsOf xs).Pairwise (· < ·) → (docsOf ys).Pairwise (· < ·) →
      docsOf (and_run fuel xs ys) = (docsOf xs).filter (fun d => d ∈ docsOf ys) := by
  intro fuel
  induction fuel with
  | zero =>
    intro xs ys hn _ _
    match xs with
    | [] => rw [and_run]; rfl
    | x :: xs' => simp at hn
  | succ fuel ih =>
    intro xs ys hn hx hy
    rw [and_run]
    rcases hna : next_and xs ys with _ | ⟨p, A, B⟩
    · dsimp only
      have hnone := (next_and_spec xs ys hx hy).1 hna
      rw [filter_inter_of_none _ _ hx hy hnone]
      rfl
    · dsimp only
      obtain ⟨g1, g2, g3⟩ := (next_and_spec xs ys hx hy).2 p A B hna
      obtain ⟨hpx, hpy⟩ := firstCommonD_mem _ _ _ g1
      obtain ⟨qx, hqx, hqx1⟩ := List.mem_map.mp hpx
      obtain ⟨qy, hqy, hqy1⟩ := List.mem_map.mp hpy
      have hlenx : (xs.filter (fun q => decide (p.1 < q.1))).length < xs.length := by
        refine length_filter_lt xs _ qx hqx ?_
        simp only [decide_eq_true_eq, hqx1]
        omega
      have hleny : (ys.filter (fun q => decide (p.1 < q.1))).length < ys.length := by
        refine length_filter_lt ys _ qy hqy ?_
        simp only [decide_eq_true_eq, hqy1]
        omega
      subst g2 g3
      have hrec := ih (xs.filter (fun q => decide (p.1 < q.1)))
        (ys.filter (fun q => decide (p.1 < q.1))) (by omega)
        (by rw [docsOf_filter_doc]; exact hx.filter _)
        (by rw [docsOf_filter_doc]; exact hy.filter _)
      rw [docsOf_cons, hrec, docsOf_filter_doc, docsOf_filter_doc]
      exact (filter_inter_of_some _ _ hx hy p.1 g1).symm

/-- C3: the And iterator over two strictly ascending operand streams,
driven to exhaustion, yields exactly the postings whose doc id occurs in
both streams, in strictly ascending doc-id order. -/
theorem claim_C3_nary_and :
    ∀ (xs ys : List Posting),
      (docsOf xs).Pairwise (· < ·) → (docsOf ys).Pairwise (· < ·) →
      docsOf (and_exhaust xs ys) = (docsOf xs).filter (fun d => d ∈ docsOf ys) ∧
        (docsOf (and_exhaust xs ys)).Pairwise (· < ·) := by
  intro xs ys hx hy
  have heq := and_run_eq (xs.length + ys.length) xs ys le_rfl hx hy
  rw [and_exhaust, heq]
  exact ⟨rfl, hx.filter _⟩

/-- C3 witness: the And iterator on the streams with doc ids `[0, 2]` and
`[1, 2]` yields exactly doc id 2, ascending. -/
theorem claim_C3_witness :
    docsOf (and_exhaust [(0, [0]), (2, [1])] [(1, [0]), (2, [2])]) =
      (docsOf [(0, [0]), (2, [1])]).filter
        (fun d => d ∈ docsOf [(1, [0]), (2, [2])]) ∧
      (docsOf (and_exhaust [(0, [0]), (2, [1])] [(1, [0]), (2, [2])])).Pairwise (· < ·) :=
  claim_C3_nary_and [(0, [0]), (2, [1])] [(1, [0]), (2, [2])] (by decide) (by decide)

end Perlin
